import Mathlib

/-!
Verification of the order-tracking system (models.py, analysis.py).

The Python sources are shallowly embedded: Python floats are modelled as
rationals, Python ints as integers, datetime values by their calendar-date
projection, and object identity (id of a live object) by an explicit
numeric identity field that is unique among live objects.  Methods that can
raise ValueError are embedded as functions into Except String.  The builtin
sorted with a key and reverse set is a stable descending sort, embedded as
List.mergeSort with the reversed comparison on the key (mergeSort is stable).
-/

namespace Uchet

/-- Product (models.py, class Product): the constructor stores all fields
directly, including the price, without running the price setter. -/
structure Product where
  name : String
  price : ℚ
  category : String
  deriving Repr, DecidableEq

/-- Identity field, modelling id of the Python object. -/
structure ProductRef where
  product_id : Nat
  product : Product
  deriving Repr, DecidableEq

/-- Product.__init__ (models.py lines 213-232): assigns self._price = price
directly, hence performs no validation at construction time. -/
def Product.init (name : String) (price : ℚ) (category : String) : Product :=
  { name := name, price := price, category := category }

/-- Product.price setter (models.py lines 251-256): raises ValueError when
value < 0, otherwise stores the value. -/
def Product.setPrice (p : Product) (value : ℚ) : Except String Product :=
  if value < 0 then .error "Цена не может быть отрицательной"
  else .ok { p with price := value }

/-- OrderItem (models.py, class OrderItem): a product reference and a
quantity. -/
structure OrderItem where
  product : ProductRef
  quantity : Int
  deriving Repr, DecidableEq

/-- OrderItem.__init__ (models.py lines 308-320): assigns
self._quantity = quantity directly, hence performs no validation at
construction time. -/
def OrderItem.init (product : ProductRef) (quantity : Int) : OrderItem :=
  { product := product, quantity := quantity }

/-- OrderItem.quantity setter (models.py lines 332-337): raises ValueError
when value < 1, otherwise stores the value. -/
def OrderItem.setQuantity (it : OrderItem) (value : Int) : Except String OrderItem :=
  if value < 1 then .error "Количество не может быть меньше 1"
  else .ok { it with quantity := value }

/-- OrderItem.total_price: product price times quantity. -/
def OrderItem.total_price (it : OrderItem) : ℚ :=
  it.product.product.price * (it.quantity : ℚ)

/-- Calendar date, the date projection of a Python datetime. -/
structure Date where
  year : Nat
  month : Nat
  day : Nat
  deriving Repr, DecidableEq

/-- Decimal rendering of a natural number left-padded with zeros to the
given width, as done by strftime field directives. -/
def padNum (width : Nat) (n : Nat) : String :=
  let s := toString n
  String.mk (List.replicate (width - s.length) '0') ++ s

/-- strftime with format %Y-%m-%d applied to the date. -/
def Date.toIso (d : Date) : String :=
  padNum 4 d.year ++ "-" ++ padNum 2 d.month ++ "-" ++ padNum 2 d.day

/-- Order (models.py, class Order): identity, creation date, status and the
item list.  The owning client is kept on the client side (the client holds
its orders), mirroring how the analysis code reads the data. -/
structure Order where
  order_id : Nat
  order_date : Date
  status : String
  items : List OrderItem
  deriving Repr, DecidableEq

/-- Order.total_amount: sum of the total_price of the items. -/
def Order.total_amount (o : Order) : ℚ :=
  (o.items.map OrderItem.total_price).sum

/-- The %Y-%m-%d rendering of the creation date of the order, as used by
get_orders_dynamics. -/
def Order.dateStr (o : Order) : String :=
  o.order_date.toIso

/-- Client (models.py, class Client): identity, name and the list of owned
orders. -/
structure Client where
  client_id : Nat
  name : String
  orders : List Order
  deriving Repr, DecidableEq

/-- Client.get_total_spent: sum of the total_amount of the orders of the
client. -/
def Client.get_total_spent (c : Client) : ℚ :=
  (c.orders.map Order.total_amount).sum

/-- Client.add_order (models.py lines 164-174): append the order unless it
is already present.  Python membership here is object identity, which the
embedding renders as equality of the order_id field (ids of live objects
are unique). -/
def Client.add_order (c : Client) (o : Order) : Client :=
  if o.order_id ∈ c.orders.map Order.order_id then c
  else { c with orders := c.orders ++ [o] }

/-- Order.__init__ (models.py lines 368-386): builds the order with empty
items and status set to the default, then registers it on the client via
client.add_order — the dual side effect of the constructor.  The fresh
object identity is passed in as oid. -/
def Order.init (client : Client) (order_date : Date) (oid : Nat) : Order × Client :=
  let o : Order := { order_id := oid, order_date := order_date,
                     status := "Новый", items := [] }
  (o, client.add_order o)

/-- Loop body of Order.add_item (models.py lines 423-441): scan the items;
on the first item whose product id matches, set its quantity through the
validating setter and stop; if no item matches, append a new OrderItem
built by the (non-validating) constructor. -/
def addItemToItems : List OrderItem → ProductRef → Int → Except String (List OrderItem)
  | [], product, quantity => .ok [OrderItem.init product quantity]
  | it :: rest, product, quantity =>
    if it.product.product_id = product.product_id then
      match it.setQuantity (it.quantity + quantity) with
      | .ok it2 => .ok (it2 :: rest)
      | .error e => .error e
    else
      match addItemToItems rest product quantity with
      | .ok l => .ok (it :: l)
      | .error e => .error e

/-- Order.add_item (models.py lines 423-441). -/
def Order.add_item (o : Order) (product : ProductRef) (quantity : Int) :
    Except String Order :=
  match addItemToItems o.items product quantity with
  | .ok l => .ok { o with items := l }
  | .error e => .error e

/-- Order.remove_item (models.py lines 443-452): keep the items whose
product id differs. -/
def Order.remove_item (o : Order) (product : ProductRef) : Order :=
  { o with items := o.items.filter (fun it => it.product.product_id ≠ product.product_id) }

/-- Record produced by get_top_clients_by_orders (analysis.py lines 48-54). -/
structure ClientRecord where
  client : Client
  order_count : Nat
  total_spent : ℚ
  deriving Repr, DecidableEq

/-- The per-client records, in the input order of the client list
(analysis.py lines 48-54). -/
def clientRecords (clients : List Client) : List ClientRecord :=
  clients.map (fun c =>
    { client := c, order_count := c.orders.length, total_spent := c.get_total_spent })

/-- Comparison used by sorted(..., key=order_count, reverse=True): a stays
before b when the key of b is at most the key of a. -/
def clientLe (a b : ClientRecord) : Bool :=
  b.order_count ≤ a.order_count

/-- DataAnalyzer.get_top_clients_by_orders (analysis.py lines 34-58):
build the records, sort them stably in descending order of order_count,
return the first top_n. -/
def get_top_clients_by_orders (clients : List Client) (top_n : Nat) : List ClientRecord :=
  (((clientRecords clients)).mergeSort clientLe).take top_n

/-- Insert a key at the end unless already present; one step of building
the keys of a Python dict in insertion order. -/
def insertKey {κ : Type} [DecidableEq κ] (ks : List κ) (k : κ) : List κ :=
  if k ∈ ks then ks else ks ++ [k]

/-- The keys of a Python dict built by scanning l, i.e. the key values in
order of first occurrence. -/
def firstKeys {β κ : Type} [DecidableEq κ] (key : β → κ) (l : List β) : List κ :=
  l.foldl (fun ks b => insertKey ks (key b)) []

/-- One iteration of a Python dict-accumulation loop: if the key of b is
absent, bind it to a fresh initial value; then update the entry of that
key with b. -/
def groupStep {β κ σ : Type} [DecidableEq κ] (key : β → κ) (start : β → σ)
    (upd : σ → β → σ) (m : List (κ × σ)) (b : β) : List (κ × σ) :=
  if key b ∈ m.map Prod.fst then
    m.map (fun p => if p.1 = key b then (p.1, upd p.2 b) else p)
  else
    m ++ [(key b, upd (start b) b)]

/-- A Python dict-accumulation loop over l, as an association list in
insertion order of keys. -/
def groupFoldl {β κ σ : Type} [DecidableEq κ] (key : β → κ) (start : β → σ)
    (upd : σ → β → σ) (l : List β) : List (κ × σ) :=
  l.foldl (groupStep key start upd) []

/-- Dict lookup on the association list. -/
def lookupKey {κ σ : Type} [DecidableEq κ] (m : List (κ × σ)) (k : κ) : Option σ :=
  (m.find? (fun p => p.1 = k)).map Prod.snd

/-- Record accumulated by get_top_products_by_sales (analysis.py
lines 74-87). -/
structure ProductSales where
  product : ProductRef
  quantity_sold : Int
  revenue : ℚ
  deriving Repr, DecidableEq

/-- Key of the product-sales dict: the product id of the item. -/
def itemKey (it : OrderItem) : Nat :=
  it.product.product_id

/-- Initial dict entry for a product first seen through item it
(analysis.py lines 79-84). -/
def salesStart (it : OrderItem) : ProductSales :=
  { product := it.product, quantity_sold := 0, revenue := 0 }

/-- Accumulation step of the product-sales dict (analysis.py
lines 86-87). -/
def salesUpd (s : ProductSales) (it : OrderItem) : ProductSales :=
  { s with quantity_sold := s.quantity_sold + it.quantity,
           revenue := s.revenue + it.total_price }

/-- All items of all orders, in scan order (analysis.py lines 76-77). -/
def allItems (orders : List Order) : List OrderItem :=
  orders.flatMap Order.items

/-- The product-sales dict after scanning every item of every order. -/
def productSalesMap (orders : List Order) : List (Nat × ProductSales) :=
  groupFoldl itemKey salesStart salesUpd (allItems orders)

/-- Comparison used by sorted(..., key=revenue, reverse=True). -/
def salesLe (a b : ProductSales) : Bool :=
  b.revenue ≤ a.revenue

/-- DataAnalyzer.get_top_products_by_sales (analysis.py lines 60-91). -/
def get_top_products_by_sales (orders : List Order) (top_n : Nat) : List ProductSales :=
  (((productSalesMap orders).map Prod.snd).mergeSort salesLe).take top_n

/-- Per-date accumulator of get_orders_dynamics (analysis.py
lines 110-117). -/
structure DayStats where
  count : Nat
  revenue : ℚ
  deriving Repr, DecidableEq

/-- Initial dict entry for a date (analysis.py lines 110-114). -/
def dayStart (_ : Order) : DayStats :=
  { count := 0, revenue := 0 }

/-- Accumulation step of the per-date dict (analysis.py lines 116-117). -/
def dayUpd (s : DayStats) (o : Order) : DayStats :=
  { count := s.count + 1, revenue := s.revenue + o.total_amount }

/-- The orders_by_date dict (analysis.py lines 107-117). -/
def ordersByDate (orders : List Order) : List (String × DayStats) :=
  groupFoldl Order.dateStr dayStart dayUpd orders

/-- DataAnalyzer._recursive_date_sort (analysis.py lines 133-155): a
quicksort around the middle element, partitioning into strictly smaller,
equal and strictly greater parts; total by well-founded recursion on the
length, which also witnesses termination of the Python recursion. -/
def recursiveDateSort (dates : List String) : List String :=
  if h : dates.length ≤ 1 then dates
  else
    let pivot := dates.get ⟨dates.length / 2, by omega⟩
    let left := dates.filter (fun x => x < pivot)
    let middle := dates.filter (fun x => x = pivot)
    let right := dates.filter (fun x => pivot < x)
    recursiveDateSort left ++ middle ++ recursiveDateSort right
termination_by dates.length
decreasing_by
  · have hp : dates.get ⟨dates.length / 2, by omega⟩ ∈ dates := List.get_mem ..
    exact List.length_filter_lt_length_iff_exists.mpr
      ⟨_, hp, by simp⟩
  · have hp : dates.get ⟨dates.length / 2, by omega⟩ ∈ dates := List.get_mem ..
    exact List.length_filter_lt_length_iff_exists.mpr
      ⟨_, hp, by simp⟩

/-- Row of the frame returned by get_orders_dynamics (analysis.py
lines 127-131). -/
structure DynRow where
  date : String
  order_count : Nat
  revenue : ℚ
  deriving Repr, DecidableEq

/-- DataAnalyzer.get_orders_dynamics (analysis.py lines 93-131): group the
orders by date string, sort the dict keys with the recursive sort, then
read each key back from the dict. -/
def get_orders_dynamics (orders : List Order) : List DynRow :=
  let m := ordersByDate orders
  let sortedDates := recursiveDateSort (m.map Prod.fst)
  sortedDates.map (fun d =>
    let s := (lookupKey m d).getD { count := 0, revenue := 0 }
    { date := d, order_count := s.count, revenue := s.revenue })

/-- Report returned by generate_sales_report (analysis.py lines 382-391). -/
structure SalesReport where
  total_orders : Nat
  total_revenue : ℚ
  total_clients : Nat
  total_products : Nat
  avg_order_value : ℚ
  avg_orders_per_client : ℚ
  top_clients : List ClientRecord
  top_products : List ProductSales
  deriving Repr, DecidableEq

/-- DataAnalyzer.generate_sales_report (analysis.py lines 365-391):
totals, zero-guarded averages and the two top-5 rankings. -/
def generate_sales_report (clients : List Client) (products : List ProductRef)
    (orders : List Order) : SalesReport :=
  let total_orders := orders.length
  let total_revenue := (orders.map Order.total_amount).sum
  let total_clients := clients.length
  let total_products := products.length
  { total_orders := total_orders
    total_revenue := total_revenue
    total_clients := total_clients
    total_products := total_products
    avg_order_value :=
      if total_orders > 0 then total_revenue / (total_orders : ℚ) else 0
    avg_orders_per_client :=
      if total_clients > 0 then (total_orders : ℚ) / (total_clients : ℚ) else 0
    top_clients := get_top_clients_by_orders clients 5
    top_products := get_top_products_by_sales orders 5 }

/-- A heap of Python list objects holding values of type V: references are
numbers below next, and mem gives the current contents of each
reference. -/
structure Heap (V : Type) where
  next : Nat
  mem : Nat → List V

/-- Allocate a fresh list object with the given contents. -/
def Heap.alloc {V : Type} (h : Heap V) (v : List V) : Nat × Heap V :=
  (h.next, { next := h.next + 1,
             mem := fun r => if r = h.next then v else h.mem r })

/-- Overwrite the contents of a list object in place: any Python mutation
of the list (append, remove, ...) is a write of new contents to the same
reference. -/
def Heap.write {V : Type} (h : Heap V) (r : Nat) (v : List V) : Heap V :=
  { h with mem := fun i => if i = r then v else h.mem i }

/-- list.copy(): allocate a fresh list object with the contents of r. -/
def listCopy {V : Type} (h : Heap V) (r : Nat) : Nat × Heap V :=
  h.alloc (h.mem r)

/-- Client.orders property (models.py lines 159-162): return a copy of the
underlying order list, given the reference held in self._orders. -/
def clientOrdersProp (h : Heap Order) (ordersRef : Nat) : Nat × Heap Order :=
  listCopy h ordersRef

/-- Order.items property (models.py lines 413-416): return a copy of the
underlying item list, given the reference held in self._items. -/
def orderItemsProp (h : Heap OrderItem) (itemsRef : Nat) : Nat × Heap OrderItem :=
  listCopy h itemsRef

/-- The key invariant of an order: at most one item per distinct product. -/
def itemKeysNodup (o : Order) : Prop :=
  (o.items.map itemKey).Nodup

/-- The orders reachable in the Python program: created by Order.__init__
(with empty items) and mutated only by add_item and remove_item. -/
inductive ReachableOrder : Order → Prop where
  | create (client : Client) (d : Date) (oid : Nat) :
      ReachableOrder (Order.init client d oid).1
  | add {o o' : Order} (p : ProductRef) (q : Int) :
      ReachableOrder o → o.add_item p q = .ok o' → ReachableOrder o'
  | remove {o : Order} (p : ProductRef) :
      ReachableOrder o → ReachableOrder (o.remove_item p)

/-- The no-duplicate invariant of a client order list, under order
identity. -/
def clientOrderIdsNodup (c : Client) : Prop :=
  (c.orders.map Order.order_id).Nodup

/-- The clients reachable in the Python program: created with an empty
order list, then touched only by add_order calls and by Order.__init__
registering a freshly created order (whose id, being the id of a brand-new
live object, differs from the ids of the orders already held). -/
inductive ReachableClient : Client → Prop where
  | create (cid : Nat) (name : String) :
      ReachableClient { client_id := cid, name := name, orders := [] }
  | addOrder {c : Client} (o : Order) :
      ReachableClient c → ReachableClient (c.add_order o)
  | newOrder {c : Client} (d : Date) (oid : Nat) :
      ReachableClient c → ReachableClient (Order.init c d oid).2

/-- Reference reading of a dict-accumulation loop at one key: fold the
update over the elements whose key matches, starting from the initial
value of the first such element (none when no element matches). -/
def expectedVal {β κ σ : Type} [DecidableEq κ] (key : β → κ) (start : β → σ)
    (upd : σ → β → σ) (l : List β) (k : κ) : Option σ :=
  (l.filter (fun b => key b = k)).foldl
    (fun acc b => some (upd (acc.getD (start b)) b)) none

/-- The product of the concrete scenario of the spec: product P at unit
price 100. -/
def scenarioProduct : ProductRef :=
  ⟨1, Product.init "P" 100 ""⟩

/-- The two orders of the concrete scenario of the spec: P sold in
quantity 1 and in quantity 2 across two orders. -/
def scenarioOrders : List Order :=
  [{ order_id := 10, order_date := ⟨2023, 1, 1⟩, status := "Новый",
     items := [OrderItem.init scenarioProduct 1] },
   { order_id := 11, order_date := ⟨2023, 1, 2⟩, status := "Новый",
     items := [OrderItem.init scenarioProduct 2] }]

/-- C2 evidence: OrderItem.__init__ with quantity 0 returns normally and
stores quantity 0 (the constructor bypasses the validating setter), while
the setter itself rejects 0; construction with quantity 1 stores 1. -/
theorem orderItem_construction_bypasses_quantity_validation :
    OrderItem.init ⟨1, Product.init "Товар" 150 ""⟩ 0 =
      { product := ⟨1, Product.init "Товар" 150 ""⟩, quantity := 0 } ∧
    (OrderItem.init ⟨1, Product.init "Товар" 150 ""⟩ 0).quantity = 0 ∧
    OrderItem.setQuantity (OrderItem.init ⟨1, Product.init "Товар" 150 ""⟩ 2) 0 =
      .error "Количество не может быть меньше 1" ∧
    (OrderItem.init ⟨1, Product.init "Товар" 150 ""⟩ 1).quantity = 1 := by
  refine ⟨rfl, rfl, ?_, rfl⟩
  rw [OrderItem.setQuantity, if_pos (by norm_num)]

/-- C3 evidence: Product.__init__ with price -1/100 returns normally and
stores the negative price (the constructor bypasses the validating
setter), while the setter itself rejects -1/100; construction with price 0
stores 0. -/
theorem product_construction_bypasses_price_validation :
    Product.init "Товар" (-1/100) "" =
      { name := "Товар", price := -1/100, category := "" } ∧
    (Product.init "Товар" (-1/100) "").price = -1/100 ∧
    Product.setPrice (Product.init "Товар" 100 "") (-1/100) =
      .error "Цена не может быть отрицательной" ∧
    (Product.init "Товар" 0 "").price = 0 := by
  refine ⟨rfl, rfl, ?_, rfl⟩
  rw [Product.setPrice, if_pos (by norm_num)]

/-- C5: the report totals: total_revenue is the sum of the order totals,
and both averages are the zero-guarded exact quotients. -/
theorem generate_sales_report_spec (clients : List Client)
    (products : List ProductRef) (orders : List Order) :
    (generate_sales_report clients products orders).total_revenue =
      (orders.map Order.total_amount).sum ∧
    (generate_sales_report clients products orders).avg_order_value =
      (if (generate_sales_report clients products orders).total_orders = 0 then 0
       else (generate_sales_report clients products orders).total_revenue /
         ((generate_sales_report clients products orders).total_orders : ℚ)) ∧
    (generate_sales_report clients products orders).avg_orders_per_client =
      (if (generate_sales_report clients products orders).total_clients = 0 then 0
       else ((generate_sales_report clients products orders).total_orders : ℚ) /
         ((generate_sales_report clients products orders).total_clients : ℚ)) := by
  refine ⟨rfl, ?_, ?_⟩ <;>
    · simp only [generate_sales_report]
      rcases Nat.eq_zero_or_pos orders.length with h | h <;>
        rcases Nat.eq_zero_or_pos clients.length with h2 | h2 <;>
          simp [h, h2, Nat.pos_iff_ne_zero.mp, Nat.ne_of_gt]

/-- The three filters of the quicksort partition reassemble, up to
permutation, into the original list. -/
theorem filter_partition_perm (l : List String) (p : String) :
    ((l.filter (fun x => x < p) ++ l.filter (fun x => x = p)) ++
      l.filter (fun x => p < x)).Perm l := by
  have h1 := List.filter_append_perm (fun x => decide (x < p)) l
  have h2 := List.filter_append_perm (fun x => decide (x = p))
    (l.filter (fun x => !decide (x < p)))
  rw [List.filter_filter, List.filter_filter] at h2
  have e1 : (l.filter fun a => decide (a = p) && !decide (a < p)) =
      l.filter (fun x => decide (x = p)) := by
    apply List.filter_congr; intro a _
    by_cases ha : a = p
    · subst ha; simp
    · simp [ha]
  have e2 : (l.filter fun a => !decide (a = p) && !decide (a < p)) =
      l.filter (fun x => decide (p < x)) := by
    apply List.filter_congr; intro a _
    rcases lt_trichotomy a p with h | h | h
    · simp [h, ne_of_lt h, lt_asymm h]
    · subst h; simp
    · simp [ne_of_gt h, lt_asymm h, h]
  rw [e1, e2] at h2
  rw [List.append_assoc]
  exact ((List.Perm.append_left _ h2).trans h1)

/-- The recursive date sort permutes its input. -/
theorem recursiveDateSort_perm (dates : List String) :
    (recursiveDateSort dates).Perm dates := by
  induction dates using recursiveDateSort.induct with
  | case1 l h => rw [recursiveDateSort, dif_pos h]
  | case2 l h pivot left right ih1 ih2 =>
      rw [recursiveDateSort, dif_neg h]
      exact ((ih1.append (List.Perm.refl _)).append ih2).trans
        (filter_partition_perm l _)

/-- The recursive date sort returns a list sorted non-decreasingly. -/
theorem recursiveDateSort_sorted (dates : List String) :
    List.Sorted (· ≤ ·) (recursiveDateSort dates) := by
  induction dates using recursiveDateSort.induct with
  | case1 l h =>
      rw [recursiveDateSort, dif_pos h]
      rcases l with _ | ⟨a, _ | ⟨b, t⟩⟩
      · simp
      · simp
      · simp at h
  | case2 l h pivot left right ih1 ih2 =>
      rw [recursiveDateSort, dif_neg h]
      have memL : ∀ x ∈ recursiveDateSort (l.filter
          (fun x => x < l.get ⟨l.length / 2, by omega⟩)),
          x < l.get ⟨l.length / 2, by omega⟩ := by
        intro x hx
        have := (recursiveDateSort_perm _).mem_iff.mp hx
        exact of_decide_eq_true (List.mem_filter.1 this).2
      have memM : ∀ x ∈ l.filter (fun x => x = l.get ⟨l.length / 2, by omega⟩),
          x = l.get ⟨l.length / 2, by omega⟩ := by
        intro x hx
        exact of_decide_eq_true (List.mem_filter.1 hx).2
      have memR : ∀ x ∈ recursiveDateSort (l.filter
          (fun x => l.get ⟨l.length / 2, by omega⟩ < x)),
          l.get ⟨l.length / 2, by omega⟩ < x := by
        intro x hx
        have := (recursiveDateSort_perm _).mem_iff.mp hx
        exact of_decide_eq_true (List.mem_filter.1 this).2
      refine (List.pairwise_append).2 ⟨(List.pairwise_append).2
        ⟨ih1, ?_, ?_⟩, ?_, ?_⟩
      · exact List.pairwise_of_forall_mem_list
          (fun a ha b hb => (memM a ha).symm ▸ (memM b hb).symm ▸ le_refl _)
      · intro a ha b hb
        exact le_of_lt ((memM b hb).symm ▸ memL a ha)
      · exact ih2
      · intro a ha b hb
        rcases List.mem_append.1 ha with ha | ha
        · exact le_of_lt (lt_trans (memL a ha) (memR b hb))
        · exact le_of_lt ((memM a ha).symm ▸ memR b hb)

/-- C4: the recursive date sort terminates (it is a total function of its
input) and returns exactly the reference ascending sort of its input under
the lexicographic string order: a sorted permutation of the input,
obtained by partitioning around the middle element and recursing on the
strict partitions. -/
theorem recursiveDateSort_eq_reference_sort (dates : List String) :
    recursiveDateSort dates = List.insertionSort (· ≤ ·) dates ∧
    (recursiveDateSort dates).Perm dates ∧
    List.Sorted (· ≤ ·) (recursiveDateSort dates) := by
  refine ⟨?_, recursiveDateSort_perm dates, recursiveDateSort_sorted dates⟩
  exact List.eq_of_perm_of_sorted
    ((recursiveDateSort_perm dates).trans (List.perm_insertionSort _ dates).symm)
    (recursiveDateSort_sorted dates)
    (List.sorted_insertionSort _ dates)

section Grouping

variable {β κ σ : Type} [DecidableEq κ]

/-- Unfolding of the dict loop over one more scanned element. -/
theorem groupFoldl_append_single (key : β → κ) (start : β → σ) (upd : σ → β → σ)
    (l : List β) (b : β) :
    groupFoldl key start upd (l ++ [b]) =
      groupStep key start upd (groupFoldl key start upd l) b := by
  simp [groupFoldl, List.foldl_append]

/-- Unfolding of the key list over one more scanned element. -/
theorem firstKeys_append_single (key : β → κ) (l : List β) (b : β) :
    firstKeys key (l ++ [b]) = insertKey (firstKeys key l) (key b) := by
  simp [firstKeys, List.foldl_append]

/-- One dict step keeps the keys, inserting the new key when absent. -/
theorem groupStep_fst (key : β → κ) (start : β → σ) (upd : σ → β → σ)
    (m : List (κ × σ)) (b : β) :
    (groupStep key start upd m b).map Prod.fst =
      insertKey (m.map Prod.fst) (key b) := by
  unfold groupStep insertKey
  by_cases h : key b ∈ m.map Prod.fst
  · rw [if_pos h, if_pos h, List.map_map]
    apply List.map_congr_left
    intro p _
    by_cases hp : p.1 = key b <;> simp [hp]
  · rw [if_neg h, if_neg h]
    simp

/-- The keys of the dict are the key values in first-occurrence order. -/
theorem groupFoldl_fst (key : β → κ) (start : β → σ) (upd : σ → β → σ)
    (l : List β) :
    (groupFoldl key start upd l).map Prod.fst = firstKeys key l := by
  induction l using List.reverseRecOn with
  | nil => simp [groupFoldl, firstKeys]
  | append_singleton l b ih =>
      rw [groupFoldl_append_single, firstKeys_append_single, groupStep_fst, ih]

/-- Inserting a key preserves freedom from duplicates. -/
theorem insertKey_nodup {ks : List κ} (h : ks.Nodup) (k : κ) :
    (insertKey ks k).Nodup := by
  unfold insertKey
  by_cases hm : k ∈ ks
  · rwa [if_pos hm]
  · rw [if_neg hm]
    simp [List.nodup_append, h, hm]

/-- The keys of a dict built by scanning hold no duplicates. -/
theorem foldl_insertKey_nodup (key : β → κ) (l : List β) :
    ∀ ks : List κ, ks.Nodup →
      (l.foldl (fun ks b => insertKey ks (key b)) ks).Nodup := by
  induction l with
  | nil => intro ks h; simpa using h
  | cons b t ih => intro ks h; exact ih _ (insertKey_nodup h _)

/-- First-occurrence keys hold no duplicates. -/
theorem firstKeys_nodup (key : β → κ) (l : List β) : (firstKeys key l).Nodup :=
  foldl_insertKey_nodup key l [] List.nodup_nil

/-- Membership after inserting a key. -/
theorem mem_insertKey {ks : List κ} {k j : κ} :
    j ∈ insertKey ks k ↔ j ∈ ks ∨ j = k := by
  unfold insertKey
  by_cases h : k ∈ ks
  · rw [if_pos h]
    constructor
    · exact Or.inl
    · rintro (hj | rfl)
      · exact hj
      · exact h
  · rw [if_neg h]
    simp

/-- Membership in the scanned key accumulator. -/
theorem mem_foldl_insertKey (key : β → κ) (l : List β) :
    ∀ (ks : List κ) (j : κ),
      j ∈ l.foldl (fun ks b => insertKey ks (key b)) ks ↔
        j ∈ ks ∨ ∃ b ∈ l, key b = j := by
  induction l with
  | nil => simp
  | cons b t ih =>
      intro ks j
      rw [List.foldl_cons, ih, mem_insertKey]
      constructor
      · rintro ((hj | rfl) | ⟨c, hc, rfl⟩)
        · exact Or.inl hj
        · exact Or.inr ⟨b, List.mem_cons_self b t, rfl⟩
        · exact Or.inr ⟨c, List.mem_cons_of_mem b hc, rfl⟩
      · rintro (hj | ⟨c, hc, rfl⟩)
        · exact Or.inl (Or.inl hj)
        · rcases List.mem_cons.1 hc with rfl | hc
          · exact Or.inl (Or.inr rfl)
          · exact Or.inr ⟨c, hc, rfl⟩

/-- A key is scanned exactly when some element carries it. -/
theorem mem_firstKeys (key : β → κ) (l : List β) (j : κ) :
    j ∈ firstKeys key l ↔ ∃ b ∈ l, key b = j := by
  rw [firstKeys, mem_foldl_insertKey]
  simp

/-- Lookup misses exactly the absent keys. -/
theorem lookupKey_eq_none {m : List (κ × σ)} {k : κ} :
    lookupKey m k = none ↔ k ∉ m.map Prod.fst := by
  unfold lookupKey
  rw [Option.map_eq_none', List.find?_eq_none]
  simp only [decide_eq_true_eq, List.mem_map]
  constructor
  · rintro h ⟨p, hp, rfl⟩
    exact h p hp rfl
  · rintro h p hp rfl
    exact h ⟨p, hp, rfl⟩

/-- Effect of one dict step on a lookup. -/
theorem lookupKey_groupStep (key : β → κ) (start : β → σ) (upd : σ → β → σ)
    (m : List (κ × σ)) (b : β) (k : κ) :
    lookupKey (groupStep key start upd m b) k =
      if key b = k then some (upd ((lookupKey m k).getD (start b)) b)
      else lookupKey m k := by
  unfold groupStep
  by_cases hmem : key b ∈ m.map Prod.fst
  · rw [if_pos hmem]
    unfold lookupKey
    rw [List.find?_map]
    have hfun : ((fun p : κ × σ => decide (p.1 = k)) ∘
        (fun p : κ × σ => if p.1 = key b then (p.1, upd p.2 b) else p)) =
        (fun p : κ × σ => decide (p.1 = k)) := by
      funext p
      by_cases hp : p.1 = key b <;> simp [hp]
    rw [hfun]
    by_cases hk : key b = k
    · subst hk
      rcases List.mem_map.1 hmem with ⟨p₀, hp₀m, hp₀⟩
      have hsome : (m.find? (fun p => decide (p.1 = key b))).isSome := by
        rw [List.find?_isSome]
        exact ⟨p₀, hp₀m, by simp [hp₀]⟩
      rcases Option.isSome_iff_exists.1 hsome with ⟨q₀, hq₀⟩
      have hq₀1 : q₀.1 = key b := by
        have := List.find?_some hq₀
        simpa using this
      rw [if_pos rfl, hq₀]
      simp [hq₀1]
    · rw [if_neg hk]
      cases hf : m.find? (fun p => decide (p.1 = k)) with
      | none => simp
      | some q₀ =>
          have hq₀1 : q₀.1 = k := by
            have := List.find?_some hf
            simpa using this
          have : q₀.1 ≠ key b := by rw [hq₀1]; exact fun hh => hk hh.symm
          simp [this]
  · rw [if_neg hmem]
    unfold lookupKey
    rw [List.find?_append]
    by_cases hk : key b = k
    · subst hk
      have hnone : m.find? (fun p => decide (p.1 = key b)) = none := by
        rw [List.find?_eq_none]
        intro p hp
        simp only [decide_eq_true_eq]
        exact fun he => hmem (he ▸ List.mem_map_of_mem Prod.fst hp)
      rw [if_pos rfl, hnone]
      simp [List.find?]
    · rw [if_neg hk]
      have hsingle : List.find? (fun p : κ × σ => decide (p.1 = k))
          [(key b, upd (start b) b)] = none := by
        simp [List.find?, hk]
      rw [hsingle]
      simp

/-- Reference recurrence for the per-key reading. -/
theorem expectedVal_append_single (key : β → κ) (start : β → σ)
    (upd : σ → β → σ) (l : List β) (b : β) (k : κ) :
    expectedVal key start upd (l ++ [b]) k =
      if key b = k then
        some (upd ((expectedVal key start upd l k).getD (start b)) b)
      else expectedVal key start upd l k := by
  unfold expectedVal
  rw [List.filter_append, List.foldl_append]
  by_cases hk : key b = k <;> simp [hk]

/-- Each dict entry reads back as the fold of the update over the scanned
elements carrying its key. -/
theorem lookupKey_groupFoldl (key : β → κ) (start : β → σ) (upd : σ → β → σ)
    (l : List β) (k : κ) :
    lookupKey (groupFoldl key start upd l) k = expectedVal key start upd l k := by
  induction l using List.reverseRecOn with
  | nil => simp [groupFoldl, expectedVal, lookupKey]
  | append_singleton l b ih =>
      rw [groupFoldl_append_single, lookupKey_groupStep,
        expectedVal_append_single, ih]

/-- Once the accumulator is set, the option fold is a plain fold. -/
theorem foldl_option_some (start : β → σ) (upd : σ → β → σ) (t : List β) :
    ∀ s : σ,
      t.foldl (fun acc b => some (upd (acc.getD (start b)) b)) (some s) =
        some (t.foldl upd s) := by
  induction t with
  | nil => intro s; rfl
  | cons b t ih =>
      intro s
      rw [List.foldl_cons, List.foldl_cons, Option.getD_some]
      exact ih _

/-- The per-key reading on a key with at least one matching element. -/
theorem expectedVal_of_filter_cons {key : β → κ} {start : β → σ}
    {upd : σ → β → σ} {l : List β} {k : κ} {b₀ : β} {t : List β}
    (hf : l.filter (fun b => key b = k) = b₀ :: t) :
    expectedVal key start upd l k = some (t.foldl upd (upd (start b₀) b₀)) := by
  unfold expectedVal
  rw [hf, List.foldl_cons, Option.getD_none]
  exact foldl_option_some start upd t _

/-- On an association list with duplicate-free keys, lookup finds each
entry. -/
theorem lookupKey_of_mem {m : List (κ × σ)} (hnd : (m.map Prod.fst).Nodup)
    {p : κ × σ} (hp : p ∈ m) : lookupKey m p.1 = some p.2 := by
  induction m with
  | nil => simp at hp
  | cons q m ih =>
      rw [List.map_cons, List.nodup_cons] at hnd
      rcases List.mem_cons.1 hp with rfl | hp
      · unfold lookupKey
        rw [List.find?_cons_of_pos _ (by simp)]
        rfl
      · have hne : ¬ q.1 = p.1 := by
          intro he
          exact hnd.1 (he ▸ List.mem_map_of_mem Prod.fst hp)
        unfold lookupKey
        rw [List.find?_cons_of_neg _ (by simpa using hne)]
        exact ih hnd.2 hp

end Grouping

/-- The descending order-count comparison is transitive. -/
theorem clientLe_trans : ∀ a b c : ClientRecord,
    clientLe a b = true → clientLe b c = true → clientLe a c = true := by
  intro a b c hab hbc
  simp only [clientLe, decide_eq_true_eq] at *
  omega

/-- The descending order-count comparison is total. -/
theorem clientLe_total : ∀ a b : ClientRecord,
    (clientLe a b || clientLe b a) = true := by
  intro a b
  simp only [clientLe, Bool.or_eq_true, decide_eq_true_eq]
  omega

/-- C1: for a non-empty client list and positive top_n, the top-clients
ranking has length min top_n (number of clients), is sorted
non-increasingly by order_count, each record carries the order count and
total spent of its client, and records with equal order_count keep the
input order of the client list (the filtered output is a sublist of the
filtered input records). -/
theorem get_top_clients_by_orders_spec (clients : List Client) (top_n : Nat)
    (hne : clients ≠ []) (hpos : 0 < top_n) :
    (get_top_clients_by_orders clients top_n).length = min top_n clients.length ∧
    List.Pairwise (fun a b => b.order_count ≤ a.order_count)
      (get_top_clients_by_orders clients top_n) ∧
    (∀ r ∈ get_top_clients_by_orders clients top_n,
      r.order_count = r.client.orders.length ∧
      r.total_spent = r.client.get_total_spent) ∧
    (∀ v : Nat,
      ((get_top_clients_by_orders clients top_n).filter
        (fun r => r.order_count = v)).Sublist
      ((clientRecords clients).filter (fun r => r.order_count = v))) := by
  refine ⟨?_, ?_, ?_, ?_⟩
  · rw [get_top_clients_by_orders, List.length_take, List.length_mergeSort]
    simp [clientRecords]
  · have hs := List.sorted_mergeSort clientLe_trans clientLe_total
      (clientRecords clients)
    exact (List.Pairwise.sublist (List.take_sublist _ _) hs).imp
      (fun h => by simpa [clientLe] using h)
  · intro r hr
    have h1 : r ∈ (clientRecords clients).mergeSort clientLe :=
      List.mem_of_mem_take hr
    have h2 : r ∈ clientRecords clients :=
      (List.mergeSort_perm _ _).mem_iff.mp h1
    rcases List.mem_map.1 h2 with ⟨c, _, rfl⟩
    exact ⟨rfl, rfl⟩
  · intro v
    have hLe : List.Pairwise (fun a b => clientLe a b = true)
        ((clientRecords clients).filter (fun r => r.order_count = v)) := by
      apply List.pairwise_of_forall_mem_list
      intro a ha b hb
      have hav := (List.mem_filter.1 ha).2
      have hbv := (List.mem_filter.1 hb).2
      simp only [decide_eq_true_eq] at hav hbv
      simp only [clientLe, decide_eq_true_eq]
      omega
    have hsub : ((clientRecords clients).filter
        (fun r => r.order_count = v)).Sublist
        ((clientRecords clients).mergeSort clientLe) :=
      List.sublist_mergeSort clientLe_trans clientLe_total hLe
        (List.filter_sublist _)
    have hsub2 : ((clientRecords clients).filter
        (fun r => r.order_count = v)).Sublist
        (((clientRecords clients).mergeSort clientLe).filter
          (fun r => r.order_count = v)) := by
      have h3 := hsub.filter (fun r => decide (r.order_count = v))
      rwa [List.filter_eq_self.mpr (fun a ha => (List.mem_filter.1 ha).2)] at h3
    have hlen : (((clientRecords clients).mergeSort clientLe).filter
        (fun r => r.order_count = v)).length =
        ((clientRecords clients).filter (fun r => r.order_count = v)).length :=
      ((List.mergeSort_perm _ _).filter _).length_eq
    have heq : (((clientRecords clients).mergeSort clientLe).filter
        (fun r => r.order_count = v)) =
        ((clientRecords clients).filter (fun r => r.order_count = v)) :=
      (hsub2.eq_of_length hlen.symm).symm
    rw [get_top_clients_by_orders, ← heq]
    exact (List.take_sublist _ _).filter _

/-- C1 witness: the length clause of the theorem at a one-client list and
top 1, hypotheses discharged concretely. -/
theorem get_top_clients_by_orders_spec_witness :
    (get_top_clients_by_orders
        [{ client_id := 1, name := "A", orders := [] }] 1).length =
      min 1 ([{ client_id := 1, name := "A", orders := [] }] : List Client).length :=
  (get_top_clients_by_orders_spec _ 1 (by simp) (by norm_num)).1

/-- Folding the sales update accumulates the quantity and revenue sums. -/
theorem foldl_salesUpd (t : List OrderItem) : ∀ s : ProductSales,
    t.foldl salesUpd s =
      { product := s.product,
        quantity_sold := s.quantity_sold + (t.map OrderItem.quantity).sum,
        revenue := s.revenue + (t.map OrderItem.total_price).sum } := by
  induction t with
  | nil => intro s; simp
  | cons it t ih =>
      intro s
      rw [List.foldl_cons, ih]
      simp only [salesUpd, List.map_cons, List.sum_cons, ProductSales.mk.injEq]
      refine ⟨trivial, by ring, by ring⟩

/-- Every entry of the product-sales dict carries its key as the product
id of its record and accumulates exactly the matching items. -/
theorem productSalesMap_spec {orders : List Order} {p : Nat × ProductSales}
    (hp : p ∈ productSalesMap orders) :
    p.2.product.product_id = p.1 ∧
    p.2.quantity_sold = (((allItems orders).filter
      (fun it => itemKey it = p.1)).map OrderItem.quantity).sum ∧
    p.2.revenue = (((allItems orders).filter
      (fun it => itemKey it = p.1)).map OrderItem.total_price).sum := by
  have hnd : ((productSalesMap orders).map Prod.fst).Nodup := by
    rw [productSalesMap, groupFoldl_fst]
    exact firstKeys_nodup _ _
  have hlk : lookupKey (productSalesMap orders) p.1 = some p.2 :=
    lookupKey_of_mem hnd hp
  rw [productSalesMap, lookupKey_groupFoldl] at hlk
  rcases hfil : (allItems orders).filter (fun it => itemKey it = p.1) with
    _ | ⟨b₀, t⟩
  · rw [expectedVal, hfil] at hlk
    simp at hlk
  · rw [expectedVal_of_filter_cons hfil] at hlk
    have hb₀ : itemKey b₀ = p.1 := by
      have hmem : b₀ ∈ (allItems orders).filter (fun it => itemKey it = p.1) := by
        rw [hfil]
        exact List.mem_cons_self _ _
      exact of_decide_eq_true (List.mem_filter.1 hmem).2
    have hval : p.2 = t.foldl salesUpd (salesUpd (salesStart b₀) b₀) :=
      (Option.some_inj.mp hlk).symm
    rw [hval, foldl_salesUpd]
    simp only [salesUpd, salesStart, List.map_cons, List.sum_cons]
    refine ⟨hb₀, ?_, ?_⟩ <;> ring

/-- The descending revenue comparison is transitive. -/
theorem salesLe_trans : ∀ a b c : ProductSales,
    salesLe a b = true → salesLe b c = true → salesLe a c = true := by
  intro a b c hab hbc
  simp only [salesLe, decide_eq_true_eq] at *
  exact le_trans hbc hab

/-- The descending revenue comparison is total. -/
theorem salesLe_total : ∀ a b : ProductSales,
    (salesLe a b || salesLe b a) = true := by
  intro a b
  simp only [salesLe, Bool.or_eq_true, decide_eq_true_eq]
  exact le_total b.revenue a.revenue

/-- C7: every record of the top-products ranking sums the quantities and
the item totals of its product over all scanned items; the ranking is
sorted non-increasingly by revenue, truncated to top_n, and keyed by
product identity (one record per product id); and the concrete scenario
(P sold in quantities 1 and 2 at unit price 100) reports quantity_sold 3
and revenue 300. -/
theorem get_top_products_by_sales_spec (orders : List Order) (top_n : Nat) :
    (∀ r ∈ get_top_products_by_sales orders top_n,
      r.quantity_sold = (((allItems orders).filter
        (fun it => itemKey it = r.product.product_id)).map
          OrderItem.quantity).sum ∧
      r.revenue = (((allItems orders).filter
        (fun it => itemKey it = r.product.product_id)).map
          OrderItem.total_price).sum) ∧
    List.Pairwise (fun a b => b.revenue ≤ a.revenue)
      (get_top_products_by_sales orders top_n) ∧
    ((get_top_products_by_sales orders top_n).map
      (fun r => r.product.product_id)).Nodup ∧
    get_top_products_by_sales scenarioOrders 5 =
      [{ product := scenarioProduct, quantity_sold := 3, revenue := 300 }] := by
  refine ⟨?_, ?_, ?_, ?_⟩
  · intro r hr
    have h1 : r ∈ ((productSalesMap orders).map Prod.snd).mergeSort salesLe :=
      List.mem_of_mem_take hr
    have h2 : r ∈ (productSalesMap orders).map Prod.snd :=
      (List.mergeSort_perm _ _).mem_iff.mp h1
    rcases List.mem_map.1 h2 with ⟨p, hpm, rfl⟩
    have hs := productSalesMap_spec hpm
    rw [hs.1]
    exact hs.2
  · have hsorted := List.sorted_mergeSort salesLe_trans salesLe_total
      ((productSalesMap orders).map Prod.snd)
    exact (List.Pairwise.sublist (List.take_sublist _ _) hsorted).imp
      (fun h => by simpa [salesLe] using h)
  · have hkeys : ((productSalesMap orders).map Prod.snd).map
        (fun r => r.product.product_id) = (productSalesMap orders).map Prod.fst := by
      rw [List.map_map]
      exact List.map_congr_left (fun p hp => (productSalesMap_spec hp).1)
    have hnd : (((productSalesMap orders).map Prod.snd).map
        (fun r => r.product.product_id)).Nodup := by
      rw [hkeys, productSalesMap, groupFoldl_fst]
      exact firstKeys_nodup _ _
    have hnd2 : ((((productSalesMap orders).map Prod.snd).mergeSort salesLe).map
        (fun r => r.product.product_id)).Nodup :=
      (((List.mergeSort_perm _ _).map _).nodup_iff).mpr hnd
    exact List.Nodup.sublist ((List.take_sublist _ _).map _) hnd2
  · show get_top_products_by_sales scenarioOrders 5 = _
    rw [get_top_products_by_sales, productSalesMap]
    have hitems : allItems scenarioOrders =
        [OrderItem.init scenarioProduct 1, OrderItem.init scenarioProduct 2] := by
      simp [allItems, scenarioOrders]
    rw [hitems]
    rw [show ([OrderItem.init scenarioProduct 1, OrderItem.init scenarioProduct 2] :
        List OrderItem) = [OrderItem.init scenarioProduct 1] ++
        [OrderItem.init scenarioProduct 2] from rfl]
    rw [groupFoldl, List.foldl_append]
    simp only [List.foldl_cons, List.foldl_nil]
    rw [show groupStep itemKey salesStart salesUpd [] (OrderItem.init scenarioProduct 1) =
        [(1, { product := scenarioProduct, quantity_sold := 1, revenue := 100 })] by
      norm_num [groupStep, itemKey, salesStart, salesUpd, scenarioProduct,
        OrderItem.init, OrderItem.total_price, Product.init]]
    rw [show groupStep itemKey salesStart salesUpd
        [(1, { product := scenarioProduct, quantity_sold := 1, revenue := 100 })]
        (OrderItem.init scenarioProduct 2) =
        [(1, { product := scenarioProduct, quantity_sold := 3, revenue := 300 })] by
      norm_num [groupStep, itemKey, salesStart, salesUpd, scenarioProduct,
        OrderItem.init, OrderItem.total_price, Product.init]]
    simp [List.mergeSort_singleton]

/-- C7 witness: the per-record clause of the theorem at the scenario
orders, membership discharged through the scenario clause. -/
theorem get_top_products_by_sales_spec_witness :
    ({ product := scenarioProduct, quantity_sold := 3, revenue := 300 } :
        ProductSales).quantity_sold =
      (((allItems scenarioOrders).filter (fun it => itemKey it =
          ({ product := scenarioProduct, quantity_sold := 3, revenue := 300 } :
            ProductSales).product.product_id)).map OrderItem.quantity).sum ∧
    ({ product := scenarioProduct, quantity_sold := 3, revenue := 300 } :
        ProductSales).revenue =
      (((allItems scenarioOrders).filter (fun it => itemKey it =
          ({ product := scenarioProduct, quantity_sold := 3, revenue := 300 } :
            ProductSales).product.product_id)).map OrderItem.total_price).sum :=
  (get_top_products_by_sales_spec scenarioOrders 5).1 _
    (by rw [(get_top_products_by_sales_spec scenarioOrders 5).2.2.2]
        exact List.mem_singleton_self _)

/-- Folding the per-date update counts the orders and sums their totals. -/
theorem foldl_dayUpd (t : List Order) : ∀ s : DayStats,
    t.foldl dayUpd s =
      { count := s.count + t.length,
        revenue := s.revenue + (t.map Order.total_amount).sum } := by
  induction t with
  | nil => intro s; simp
  | cons o t ih =>
      intro s
      rw [List.foldl_cons, ih]
      simp only [dayUpd, List.length_cons, List.map_cons, List.sum_cons,
        DayStats.mk.injEq]
      exact ⟨by omega, by ring⟩

/-- Every entry of the per-date dict counts the orders of its date and
sums their totals. -/
theorem ordersByDate_spec {orders : List Order} {p : String × DayStats}
    (hp : p ∈ ordersByDate orders) :
    p.2.count = (orders.filter (fun o => o.dateStr = p.1)).length ∧
    p.2.revenue = ((orders.filter (fun o => o.dateStr = p.1)).map
      Order.total_amount).sum := by
  have hnd : ((ordersByDate orders).map Prod.fst).Nodup := by
    rw [ordersByDate, groupFoldl_fst]
    exact firstKeys_nodup _ _
  have hlk : lookupKey (ordersByDate orders) p.1 = some p.2 :=
    lookupKey_of_mem hnd hp
  rw [ordersByDate, lookupKey_groupFoldl] at hlk
  rcases hfil : orders.filter (fun o => o.dateStr = p.1) with _ | ⟨b₀, t⟩
  · rw [expectedVal, hfil] at hlk
    simp at hlk
  · rw [expectedVal_of_filter_cons hfil] at hlk
    have hval : p.2 = t.foldl dayUpd (dayUpd (dayStart b₀) b₀) :=
      (Option.some_inj.mp hlk).symm
    rw [hval, foldl_dayUpd, hfil]
    simp only [dayUpd, dayStart, List.length_cons, List.map_cons, List.sum_cons]
    exact ⟨by omega, by ring⟩

/-- A duplicate-free key list covering every element splits the length of
a list into the lengths of the per-key filters. -/
theorem sum_filter_lengths {β κ : Type} [DecidableEq κ] (key : β → κ) :
    ∀ (ks : List κ) (l : List β), ks.Nodup → (∀ b ∈ l, key b ∈ ks) →
      (ks.map (fun k => (l.filter (fun b => key b = k)).length)).sum = l.length := by
  intro ks
  induction ks with
  | nil =>
      intro l _ hcov
      rcases l with _ | ⟨b, t⟩
      · simp
      · exact absurd (hcov b (List.mem_cons_self b t)) (List.not_mem_nil _)
  | cons k ks ih =>
      intro l hnd hcov
      rw [List.map_cons, List.sum_cons]
      have hknotin : k ∉ ks := (List.nodup_cons.1 hnd).1
      have hnd2 : ks.Nodup := (List.nodup_cons.1 hnd).2
      have hmapeq : ks.map (fun j => (l.filter (fun b => key b = j)).length) =
          ks.map (fun j => ((l.filter (fun b => !decide (key b = k))).filter
            (fun b => key b = j)).length) := by
        apply List.map_congr_left
        intro j hj
        congr 1
        rw [List.filter_filter]
        refine (List.filter_congr ?_).symm
        intro b _
        by_cases hb : key b = j
        · have hjk : ¬ key b = k := fun he => hknotin ((hb.symm.trans he) ▸ hj)
          have hjk2 : ¬ j = k := fun he => hknotin (he ▸ hj)
          simp [hb, hjk, hjk2]
        · simp [hb]
      rw [hmapeq, ih _ hnd2 ?_]
      · have hsplit := (List.filter_append_perm
          (fun b => decide (key b = k)) l).length_eq
        rw [List.length_append] at hsplit
        omega
      · intro b hb
        have hbl := (List.mem_filter.1 hb).1
        have hbk : ¬ key b = k := by
          have := (List.mem_filter.1 hb).2
          simpa using this
        rcases List.mem_cons.1 (hcov b hbl) with he | he
        · exact absurd he hbk
        · exact he

/-- Zeta-reduced reading of get_orders_dynamics. -/
theorem get_orders_dynamics_eq (orders : List Order) :
    get_orders_dynamics orders =
      (recursiveDateSort ((ordersByDate orders).map Prod.fst)).map (fun d =>
        { date := d,
          order_count := ((lookupKey (ordersByDate orders) d).getD
            { count := 0, revenue := 0 }).count,
          revenue := ((lookupKey (ordersByDate orders) d).getD
            { count := 0, revenue := 0 }).revenue }) := rfl

/-- C6: the dynamics rows have strictly increasing date strings, their
counts sum to the number of orders, and each row counts and sums exactly
the orders of its calendar date. -/
theorem get_orders_dynamics_spec (orders : List Order) :
    List.Pairwise (fun a b => a.date < b.date) (get_orders_dynamics orders) ∧
    ((get_orders_dynamics orders).map DynRow.order_count).sum = orders.length ∧
    (∀ row ∈ get_orders_dynamics orders,
      row.order_count = (orders.filter (fun o => o.dateStr = row.date)).length ∧
      row.revenue = ((orders.filter (fun o => o.dateStr = row.date)).map
        Order.total_amount).sum) := by
  have hkeysnd : ((ordersByDate orders).map Prod.fst).Nodup := by
    rw [ordersByDate, groupFoldl_fst]
    exact firstKeys_nodup _ _
  have hfk : (ordersByDate orders).map Prod.fst = firstKeys Order.dateStr orders := by
    rw [ordersByDate, groupFoldl_fst]
  have hsortnd : (recursiveDateSort ((ordersByDate orders).map Prod.fst)).Nodup :=
    ((recursiveDateSort_perm _).nodup_iff).mpr hkeysnd
  have hlt : List.Pairwise (fun a b => a < b)
      (recursiveDateSort ((ordersByDate orders).map Prod.fst)) :=
    List.Sorted.lt_of_le (recursiveDateSort_sorted _) hsortnd
  have hlook : ∀ d ∈ (ordersByDate orders).map Prod.fst,
      ((lookupKey (ordersByDate orders) d).getD { count := 0, revenue := 0 }).count =
        (orders.filter (fun o => o.dateStr = d)).length ∧
      ((lookupKey (ordersByDate orders) d).getD { count := 0, revenue := 0 }).revenue =
        ((orders.filter (fun o => o.dateStr = d)).map Order.total_amount).sum := by
    intro d hd
    rcases List.mem_map.1 hd with ⟨p, hpm, rfl⟩
    rw [lookupKey_of_mem hkeysnd hpm, Option.getD_some]
    exact ordersByDate_spec hpm
  refine ⟨?_, ?_, ?_⟩
  · rw [get_orders_dynamics_eq, List.pairwise_map]
    exact hlt.imp (fun h => h)
  · rw [get_orders_dynamics_eq, List.map_map]
    have hsum : ((recursiveDateSort ((ordersByDate orders).map Prod.fst)).map
        (fun d => ((lookupKey (ordersByDate orders) d).getD
          { count := 0, revenue := 0 }).count)).sum =
        (((ordersByDate orders).map Prod.fst).map
          (fun d => ((lookupKey (ordersByDate orders) d).getD
            { count := 0, revenue := 0 }).count)).sum :=
      ((recursiveDateSort_perm _).map _).sum_eq
    have hcongr : (((ordersByDate orders).map Prod.fst).map
        (fun d => ((lookupKey (ordersByDate orders) d).getD
          { count := 0, revenue := 0 }).count)).sum =
        (((ordersByDate orders).map Prod.fst).map
          (fun d => (orders.filter (fun o => o.dateStr = d)).length)).sum := by
      congr 1
      exact List.map_congr_left (fun d hd => (hlook d hd).1)
    refine hsum.trans (hcongr.trans ?_)
    apply sum_filter_lengths Order.dateStr _ orders hkeysnd
    intro o ho
    rw [hfk, mem_firstKeys]
    exact ⟨o, ho, rfl⟩
  · rw [get_orders_dynamics_eq]
    intro row hrow
    rcases List.mem_map.1 hrow with ⟨d, hd, rfl⟩
    have hd2 : d ∈ (ordersByDate orders).map Prod.fst :=
      (recursiveDateSort_perm _).mem_iff.mp hd
    exact hlook d hd2

/-- C6 witness: the per-row clause of the theorem at a one-order list,
membership discharged by evaluating the dynamics. -/
theorem get_orders_dynamics_spec_witness :
    (({ date := Order.dateStr (⟨10, ⟨2023, 1, 1⟩, "Новый", []⟩ : Order),
        order_count := 1, revenue := 0 } : DynRow)).order_count =
      (([(⟨10, ⟨2023, 1, 1⟩, "Новый", []⟩ : Order)]).filter (fun o => o.dateStr =
        (({ date := Order.dateStr (⟨10, ⟨2023, 1, 1⟩, "Новый", []⟩ : Order),
            order_count := 1, revenue := 0 } : DynRow)).date)).length ∧
    (({ date := Order.dateStr (⟨10, ⟨2023, 1, 1⟩, "Новый", []⟩ : Order),
        order_count := 1, revenue := 0 } : DynRow)).revenue =
      ((([(⟨10, ⟨2023, 1, 1⟩, "Новый", []⟩ : Order)]).filter (fun o => o.dateStr =
        (({ date := Order.dateStr (⟨10, ⟨2023, 1, 1⟩, "Новый", []⟩ : Order),
            order_count := 1, revenue := 0 } : DynRow)).date)).map
        Order.total_amount).sum :=
  (get_orders_dynamics_spec _).2.2 _ (by
    have hdyn : get_orders_dynamics [(⟨10, ⟨2023, 1, 1⟩, "Новый", []⟩ : Order)] =
        [{ date := Order.dateStr (⟨10, ⟨2023, 1, 1⟩, "Новый", []⟩ : Order),
           order_count := 1, revenue := 0 }] := by
      rw [get_orders_dynamics_eq]
      have hm : ordersByDate [(⟨10, ⟨2023, 1, 1⟩, "Новый", []⟩ : Order)] =
          [(Order.dateStr (⟨10, ⟨2023, 1, 1⟩, "Новый", []⟩ : Order),
            { count := 1, revenue := 0 })] := by
        simp [ordersByDate, groupFoldl, groupStep, dayStart, dayUpd,
          Order.total_amount]
      rw [hm]
      rw [show ([(Order.dateStr (⟨10, ⟨2023, 1, 1⟩, "Новый", []⟩ : Order),
          ({ count := 1, revenue := 0 } : DayStats))].map Prod.fst) =
          [Order.dateStr (⟨10, ⟨2023, 1, 1⟩, "Новый", []⟩ : Order)] from rfl]
      rw [recursiveDateSort, dif_pos (by simp)]
      simp [lookupKey, List.find?]
    rw [hdyn]
    exact List.mem_singleton_self _)

/-- A successful quantity update keeps the product and stores the value. -/
theorem setQuantity_product {it it2 : OrderItem} {v : Int}
    (h : it.setQuantity v = .ok it2) :
    it2.product = it.product ∧ it2.quantity = v := by
  unfold OrderItem.setQuantity at h
  split at h
  · cases h
  · injection h with h
    subst h
    exact ⟨rfl, rfl⟩

/-- The quantity setter accepts values of at least 1. -/
theorem setQuantity_ok {it : OrderItem} {v : Int} (h : 1 ≤ v) :
    it.setQuantity v = .ok { it with quantity := v } := by
  unfold OrderItem.setQuantity
  rw [if_neg (by omega)]

/-- The quantity setter rejects values below 1. -/
theorem setQuantity_error {it : OrderItem} {v : Int} (h : v < 1) :
    it.setQuantity v = .error "Количество не может быть меньше 1" := by
  unfold OrderItem.setQuantity
  rw [if_pos h]

/-- A successful add_item loop keeps the key list when the product is
present and appends the new key otherwise. -/
theorem addItemToItems_keys : ∀ (items : List OrderItem) (p : ProductRef)
    (q : Int) (l : List OrderItem), addItemToItems items p q = .ok l →
    l.map itemKey = if p.product_id ∈ items.map itemKey then items.map itemKey
                    else items.map itemKey ++ [p.product_id] := by
  intro items
  induction items with
  | nil =>
      intro p q l h
      unfold addItemToItems at h
      injection h with h
      subst h
      simp [itemKey, OrderItem.init]
  | cons it rest ih =>
      intro p q l h
      unfold addItemToItems at h
      by_cases hk : it.product.product_id = p.product_id
      · rw [if_pos hk] at h
        cases hset : it.setQuantity (it.quantity + q) with
        | error e => rw [hset] at h; cases h
        | ok it2 =>
            rw [hset] at h
            injection h with h
            subst h
            have hprod := (setQuantity_product hset).1
            have hmem : p.product_id ∈ (it :: rest).map itemKey := by
              simp only [List.map_cons, List.mem_cons]
              exact Or.inl (by rw [itemKey, hk])
            rw [if_pos hmem]
            simp [itemKey, hprod, hk]
      · rw [if_neg hk] at h
        cases hrec : addItemToItems rest p q with
        | error e => rw [hrec] at h; cases h
        | ok l2 =>
            rw [hrec] at h
            injection h with h
            subst h
            have ht := ih p q l2 hrec
            have hknot : ¬ p.product_id = itemKey it :=
              fun he => hk (by rw [itemKey] at he; exact he.symm)
            by_cases hmem : p.product_id ∈ rest.map itemKey
            · rw [if_pos hmem] at ht
              have hmemc : p.product_id ∈ (it :: rest).map itemKey := by
                simp only [List.map_cons, List.mem_cons]
                exact Or.inr hmem
              rw [if_pos hmemc]
              simp [ht]
            · rw [if_neg hmem] at ht
              have hmemc : p.product_id ∉ (it :: rest).map itemKey := by
                simp only [List.map_cons, List.mem_cons]
                rintro (he | he)
                · exact hknot he
                · exact hmem he
              rw [if_neg hmemc]
              simp [ht]

/-- When no item carries the product id, add_item appends the new line
built by the non-validating constructor. -/
theorem addItemToItems_fresh : ∀ (items : List OrderItem) (p : ProductRef)
    (q : Int), (∀ it ∈ items, itemKey it ≠ p.product_id) →
    addItemToItems items p q = .ok (items ++ [OrderItem.init p q]) := by
  intro items
  induction items with
  | nil => intro p q _; rfl
  | cons it rest ih =>
      intro p q hfresh
      unfold addItemToItems
      have h1 : ¬ it.product.product_id = p.product_id :=
        hfresh it (List.mem_cons_self it rest)
      rw [if_neg h1, ih p q (fun x hx => hfresh x (List.mem_cons_of_mem _ hx))]
      rfl

/-- When some item carries the product id (under the key invariant),
add_item bumps exactly that line through the validating setter: it
succeeds and maps the bump over the items when the new quantity is at
least 1, and fails with the setter error otherwise. -/
theorem addItemToItems_existing : ∀ (items : List OrderItem) (p : ProductRef)
    (q : Int) (it₀ : OrderItem),
    (items.map itemKey).Nodup → it₀ ∈ items → itemKey it₀ = p.product_id →
    ((1 ≤ it₀.quantity + q →
        addItemToItems items p q = .ok (items.map (fun it =>
          if itemKey it = p.product_id
          then { it with quantity := it.quantity + q } else it))) ∧
     (it₀.quantity + q < 1 →
        addItemToItems items p q = .error "Количество не может быть меньше 1")) := by
  intro items
  induction items with
  | nil => intro p q it₀ _ h0 _; exact absurd h0 (List.not_mem_nil _)
  | cons it rest ih =>
      intro p q it₀ hnd hmem hkey
      rw [List.map_cons, List.nodup_cons] at hnd
      by_cases hk : it.product.product_id = p.product_id
      · have hit₀ : it₀ = it := by
          rcases List.mem_cons.1 hmem with rfl | hmem2
          · rfl
          · exfalso
            apply hnd.1
            have he : itemKey it = itemKey it₀ := by
              rw [itemKey, hk, ← hkey]
            rw [he]
            exact List.mem_map_of_mem itemKey hmem2
        subst hit₀
        have hrestne : ∀ x ∈ rest, ¬ itemKey x = p.product_id := by
          intro x hx he
          apply hnd.1
          rw [show itemKey it₀ = p.product_id from hk, ← he]
          exact List.mem_map_of_mem itemKey hx
        constructor
        · intro hq
          unfold addItemToItems
          rw [if_pos hk, setQuantity_ok hq]
          have hrw : rest.map (fun it => if itemKey it = p.product_id
              then { it with quantity := it.quantity + q } else it) = rest :=
            (List.map_congr_left (fun x hx => if_neg (hrestne x hx))).trans
              (List.map_id' rest)
          simp [hkey, hrw]
        · intro hq
          unfold addItemToItems
          rw [if_pos hk, setQuantity_error hq]
      · have hmem2 : it₀ ∈ rest := by
          rcases List.mem_cons.1 hmem with rfl | h2
          · exact absurd hkey hk
          · exact h2
        have hrec := ih p q it₀ hnd.2 hmem2 hkey
        constructor
        · intro hq
          unfold addItemToItems
          rw [if_neg hk, hrec.1 hq]
          have hne2 : ¬ itemKey it = p.product_id := hk
          simp [hne2]
        · intro hq
          unfold addItemToItems
          rw [if_neg hk, hrec.2 hq]

/-- A successful add_item loop keeps the key invariant. -/
theorem addItemToItems_nodup {items l : List OrderItem} {p : ProductRef}
    {q : Int} (hnd : (items.map itemKey).Nodup)
    (h : addItemToItems items p q = .ok l) : (l.map itemKey).Nodup := by
  rw [addItemToItems_keys items p q l h]
  by_cases hmem : p.product_id ∈ items.map itemKey
  · rwa [if_pos hmem]
  · rw [if_neg hmem]
    simp [List.nodup_append, hnd, hmem]

/-- Every reachable order has at most one item per distinct product. -/
theorem reachableOrder_nodup : ∀ o : Order, ReachableOrder o → itemKeysNodup o := by
  intro o h
  induction h with
  | create client d oid => simp [itemKeysNodup, Order.init]
  | @add o1 o2 p q hre hok ih =>
      unfold Order.add_item at hok
      cases hl : addItemToItems o1.items p q with
      | error e => rw [hl] at hok; cases hok
      | ok l =>
          rw [hl] at hok
          injection hok with hok
          subst hok
          exact addItemToItems_nodup ih hl
  | @remove o1 p hre ih =>
      unfold itemKeysNodup Order.remove_item at *
      exact List.Nodup.sublist ((List.filter_sublist _).map itemKey) ih

/-- C8: every reachable order holds at most one item per distinct product
and add_item preserves that invariant; when an item for the product
exists, add_item bumps exactly its quantity (validated against dropping
below 1) and appends nothing (the item count is unchanged); when none
exists, it appends exactly one new item for the product. -/
theorem order_add_item_spec :
    (∀ o : Order, ReachableOrder o → itemKeysNodup o) ∧
    (∀ (o : Order) (p : ProductRef) (q : Int) (it₀ : OrderItem),
      itemKeysNodup o → it₀ ∈ o.items → itemKey it₀ = p.product_id →
      ((1 ≤ it₀.quantity + q →
          o.add_item p q = .ok { o with items := o.items.map (fun it =>
            if itemKey it = p.product_id
            then { it with quantity := it.quantity + q } else it) }) ∧
       (it₀.quantity + q < 1 →
          o.add_item p q = .error "Количество не может быть меньше 1") ∧
       (∀ o', o.add_item p q = .ok o' → o'.items.length = o.items.length))) ∧
    (∀ (o : Order) (p : ProductRef) (q : Int),
      (∀ it ∈ o.items, itemKey it ≠ p.product_id) →
      o.add_item p q = .ok { o with items := o.items ++ [OrderItem.init p q] }) := by
  refine ⟨reachableOrder_nodup, ?_, ?_⟩
  · intro o p q it₀ hnd hmem hkey
    have hex := addItemToItems_existing o.items p q it₀ hnd hmem hkey
    refine ⟨?_, ?_, ?_⟩
    · intro hq
      unfold Order.add_item
      rw [hex.1 hq]
    · intro hq
      unfold Order.add_item
      rw [hex.2 hq]
    · intro o' ho'
      unfold Order.add_item at ho'
      cases hl : addItemToItems o.items p q with
      | error e => rw [hl] at ho'; cases ho'
      | ok l =>
          rw [hl] at ho'
          injection ho' with ho'
          subst ho'
          have hkeys := addItemToItems_keys o.items p q l hl
          have hpmem : p.product_id ∈ o.items.map itemKey := by
            rw [← hkey]
            exact List.mem_map_of_mem itemKey hmem
          rw [if_pos hpmem] at hkeys
          have hlen := congrArg List.length hkeys
          simpa using hlen
  · intro o p q hfresh
    unfold Order.add_item
    rw [addItemToItems_fresh o.items p q hfresh]

/-- C8 witness: the fresh-product clause of the theorem at a freshly
created (empty) order. -/
theorem order_add_item_spec_witness :
    (Order.init ⟨1, "A", []⟩ ⟨2023, 1, 1⟩ 7).1.add_item scenarioProduct 2 =
      .ok { (Order.init ⟨1, "A", []⟩ ⟨2023, 1, 1⟩ 7).1 with
            items := (Order.init ⟨1, "A", []⟩ ⟨2023, 1, 1⟩ 7).1.items ++
              [OrderItem.init scenarioProduct 2] } :=
  order_add_item_spec.2.2 _ scenarioProduct 2 (by simp [Order.init])

/-- add_order keeps the no-duplicate invariant of the client order list. -/
theorem add_order_nodup {c : Client} (o : Order) (h : clientOrderIdsNodup c) :
    clientOrderIdsNodup (c.add_order o) := by
  unfold Client.add_order
  by_cases hm : o.order_id ∈ c.orders.map Order.order_id
  · rwa [if_pos hm]
  · rw [if_neg hm]
    unfold clientOrderIdsNodup at *
    simp only [List.map_append]
    simp [List.nodup_append, h, hm]

/-- Every reachable client has a duplicate-free order list. -/
theorem reachableClient_nodup : ∀ c : Client, ReachableClient c →
    clientOrderIdsNodup c := by
  intro c h
  induction h with
  | create cid name => simp [clientOrderIdsNodup]
  | addOrder o _ ih => exact add_order_nodup o ih
  | newOrder d oid _ ih => exact add_order_nodup _ ih

/-- C9: constructing an order bound to a client appends the new order to
the client order list (the id of the brand-new order differs from the ids
already held); add_order with an already-present order leaves the list
unchanged; and after every sequence of client creations, add_order calls
and order constructions, the order list holds no duplicate order. -/
theorem order_init_registers_and_no_duplicates :
    (∀ (c : Client) (d : Date) (oid : Nat),
      oid ∉ c.orders.map Order.order_id →
      (Order.init c d oid).2.orders = c.orders ++ [(Order.init c d oid).1]) ∧
    (∀ (c : Client) (o : Order), o ∈ c.orders → c.add_order o = c) ∧
    (∀ c : Client, ReachableClient c → clientOrderIdsNodup c) := by
  refine ⟨?_, ?_, reachableClient_nodup⟩
  · intro c d oid hfresh
    have h2 : (Order.init c d oid).2 = c.add_order (Order.init c d oid).1 := rfl
    rw [h2]
    unfold Client.add_order
    rw [if_neg (by simpa [Order.init] using hfresh)]
  · intro c o hmem
    unfold Client.add_order
    rw [if_pos (List.mem_map_of_mem Order.order_id hmem)]

/-- C9 witness: the constructor clause at a fresh client and a fresh order
id. -/
theorem order_init_registers_witness :
    (Order.init ⟨1, "A", []⟩ ⟨2023, 1, 1⟩ 7).2.orders =
      [] ++ [(Order.init ⟨1, "A", []⟩ ⟨2023, 1, 1⟩ 7).1] :=
  order_init_registers_and_no_duplicates.1 ⟨1, "A", []⟩ ⟨2023, 1, 1⟩ 7 (by simp)

/-- C10: the orders accessor of a client and the items accessor of an
order return a fresh copy of the stored list: the copy holds the same
contents, and overwriting the copy with any mutated contents leaves the
stored list of the entity unchanged. -/
theorem accessor_copy_frame :
    (∀ (h : Heap Order) (ordersRef : Nat) (f : List Order → List Order),
      ordersRef < h.next →
      (clientOrdersProp h ordersRef).2.mem (clientOrdersProp h ordersRef).1 =
        h.mem ordersRef ∧
      ((clientOrdersProp h ordersRef).2.write (clientOrdersProp h ordersRef).1
        (f ((clientOrdersProp h ordersRef).2.mem
          (clientOrdersProp h ordersRef).1))).mem ordersRef = h.mem ordersRef) ∧
    (∀ (h : Heap OrderItem) (itemsRef : Nat) (f : List OrderItem → List OrderItem),
      itemsRef < h.next →
      (orderItemsProp h itemsRef).2.mem (orderItemsProp h itemsRef).1 =
        h.mem itemsRef ∧
      ((orderItemsProp h itemsRef).2.write (orderItemsProp h itemsRef).1
        (f ((orderItemsProp h itemsRef).2.mem
          (orderItemsProp h itemsRef).1))).mem itemsRef = h.mem itemsRef) := by
  constructor <;>
    · intro h r f hr
      have hne : ¬ r = h.next := by omega
      constructor
      · simp [clientOrdersProp, orderItemsProp, listCopy, Heap.alloc]
      · simp [clientOrdersProp, orderItemsProp, listCopy, Heap.alloc,
          Heap.write, hne]

/-- C10 witness: the copy-contents clause at a one-reference heap. -/
theorem accessor_copy_frame_witness :
    (clientOrdersProp { next := 1, mem := fun _ => [] } 0).2.mem
      (clientOrdersProp { next := 1, mem := fun _ => [] } 0).1 =
      Heap.mem { next := 1, mem := fun _ => [] } 0 :=
  (accessor_copy_frame.1 { next := 1, mem := fun _ => [] } 0 (fun l => l)
    (by norm_num)).1

end Uchet
